import Mathlib

/-!
Shallow embedding of the BigInt arithmetic engine (src/lib.rs).

A BigInt is identified with its digit vector: a list of machine words
(naturals below 2^32), most significant first.  Strings are lists of
Unicode code points.  Fallible operations return `Option`, where `none`
models a hard abort: the subtraction-underflow abort, an out-of-bounds
vector index, or an overflowing shift distance under the checked
semantics Rust applies in test builds.
-/

set_option maxRecDepth 4000

namespace BigInt

/-- Rust `char::to_digit(16)` on a code point: the hexadecimal digit value
of `0-9`, `a-f` or `A-F`, and `none` for every other character. -/
def to_digit16 (c : Nat) : Option Nat :=
  if 48 ≤ c ∧ c ≤ 57 then some (c - 48)
  else if 97 ≤ c ∧ c ≤ 102 then some (c - 87)
  else if 65 ≤ c ∧ c ≤ 70 then some (c - 55)
  else none

/-- `set_hex`: keep the characters that parse as hex digits, in order,
silently dropping the rest (`filter_map` over `to_digit(16)`). -/
def set_hex (hex : List Nat) : List Nat :=
  hex.filterMap to_digit16

/-- Code point of the lowercase hexadecimal digit character of `d < 16`. -/
def hexChar (d : Nat) : Nat :=
  if d < 10 then 48 + d else 87 + d

/-- Rust lowercase hex formatting of one word: minimal digit string,
`"0"` for zero. -/
def hexDigits (n : Nat) : List Nat :=
  if n < 16 then [hexChar n]
  else hexDigits (n / 16) ++ [hexChar (n % 16)]
termination_by n
decreasing_by exact Nat.div_lt_self (by omega) (by omega)

/-- `get_hex`: format every stored word and concatenate. -/
def get_hex (ds : List Nat) : List Nat :=
  (ds.map hexDigits).flatten

/-- `pad`: zero-extend the shorter operand on its most-significant side
until both vectors have equal length. -/
def pad (a b : List Nat) : List Nat × List Nat :=
  if b.length < a.length then (a, List.replicate (a.length - b.length) 0 ++ b)
  else if a.length < b.length then (List.replicate (b.length - a.length) 0 ++ a, b)
  else (a, b)

/-- `xor`: pad, then word-wise exclusive or. -/
def xor (a b : List Nat) : List Nat :=
  let p := pad a b
  List.zipWith (fun x y => x ^^^ y) p.1 p.2

/-- `or`: pad, then word-wise inclusive or. -/
def or (a b : List Nat) : List Nat :=
  let p := pad a b
  List.zipWith (fun x y => x ||| y) p.1 p.2

/-- `and`: pad, then word-wise conjunction. -/
def and (a b : List Nat) : List Nat :=
  let p := pad a b
  List.zipWith (fun x y => x &&& y) p.1 p.2

/-- `inv`: bitwise complement of every full 32-bit word. -/
def inv (a : List Nat) : List Nat :=
  a.map (fun d => d ^^^ 4294967295)

/-- A 32-bit right shift; a distance of 32 or more is an overflowing
shift and aborts. -/
def shr32 (x n : Nat) : Option Nat :=
  if n < 32 then some (x >>> n) else none

/-- A 32-bit left shift (shifted-out bits are discarded); a distance of
32 or more is an overflowing shift and aborts. -/
def shl32 (x n : Nat) : Option Nat :=
  if n < 32 then some ((x <<< n) % 4294967296) else none

/-- Body of the `shift_r` loop.  Each pair holds a word's more
significant neighbour (read before it is overwritten) and the word:
`vec[i] = (vec[i] >> s) | (vec[i-1] << (32 - s))`. -/
def shrBody (s : Nat) : List (Nat × Nat) → Option (List Nat)
  | [] => some []
  | p :: rest =>
    match shr32 p.2 s, shl32 p.1 (32 - s), shrBody s rest with
    | some x, some y, some out => some ((x ||| y) :: out)
    | _, _, _ => none

/-- `shift_r`: multi-word right shift by `bits % 32`.  The final
`vec[0] >>= shift_amount` indexes out of bounds on an empty vector. -/
def shift_r (a : List Nat) (bits : Nat) : Option (List Nat) :=
  match a with
  | [] => none
  | a0 :: rest =>
    let s := bits % 32
    match shrBody s (List.zip (a0 :: rest) rest), shr32 a0 s with
    | some out, some h => some (h :: out)
    | _, _ => none

/-- The `shift_l` loop over the words least significant first:
`shifted = (digit << bits) | carry`, new carry `digit >> (32 - bits)`. -/
def shlLoop (bits : Nat) : List Nat → Nat → Option (List Nat × Nat)
  | [], carry => some ([], carry)
  | d :: ds, carry =>
    match shl32 d bits, shr32 d (32 - bits) with
    | some sh, some c =>
      match shlLoop bits ds c with
      | some pr => some ((sh ||| carry) :: pr.1, pr.2)
      | none => none
    | _, _ => none

/-- `shift_l`: multi-word left shift by `n % 32`; a residual carry is
appended as a new most-significant word. -/
def shift_l (a : List Nat) (n : Nat) : Option (List Nat) :=
  let bits := n % 32
  match shlLoop bits a.reverse 0 with
  | some pr => some ((if 0 < pr.2 then pr.1 ++ [pr.2] else pr.1).reverse)
  | none => none

/-- The `add` loop over digit pairs least significant first, with the
residual carry appended at the end. -/
def addPairs : List (Nat × Nat) → Nat → List Nat
  | [], carry => if 0 < carry then [carry] else []
  | p :: rest, carry =>
    (p.1 + p.2 + carry) % 16 :: addPairs rest ((p.1 + p.2 + carry) / 16)

/-- `add`: pad, add least significant first in base 16, reverse back. -/
def add (a b : List Nat) : List Nat :=
  let p := pad a b
  (addPairs (List.zip p.1.reverse p.2.reverse) 0).reverse

/-- The `sub` loop over digit pairs least significant first, threading
the borrow flag exactly as the source does. -/
def subPairs : List (Nat × Nat) → Bool → List Nat × Bool
  | [], borrow => ([], borrow)
  | p :: rest, borrow =>
    let a := if borrow then (if p.1 = 0 then 15 else p.1 - 1) else p.1
    let borrow1 := borrow && decide (p.1 = 0)
    let step := if a < p.2 then (16 + a - p.2, true) else (a - p.2, borrow1)
    let out := subPairs rest step.2
    (step.1 :: out.1, out.2)

/-- `sub`: pad, subtract least significant first; a borrow still pending
after the last pair is the hard abort. -/
def sub (a b : List Nat) : Option (List Nat) :=
  let p := pad a b
  let out := subPairs (List.zip p.1.reverse p.2.reverse) false
  if out.2 then none else some out.1.reverse

/-- Multiply the multiplier digits (least significant first) by a single
digit with base-16 carry propagation, residual carry appended. -/
def mulDigit (a : Nat) : List Nat → Nat → List Nat
  | [], carry => if 0 < carry then [carry] else []
  | b :: bs, carry =>
    (a * b + carry) % 16 :: mulDigit a bs ((a * b + carry) / 16)

/-- Outer loop of `mul`: walk the multiplicand least significant first;
`k` counts the zero words the partial product is left-padded with
below its digits, and `acc` accumulates by `add`. -/
def mulLoop (pb : List Nat) : List Nat → Nat → List Nat → List Nat
  | [], _, acc => acc
  | a :: rest, k, acc =>
    mulLoop pb rest (k + 1)
      (add acc ((mulDigit a pb.reverse 0).reverse ++ List.replicate k 0))

/-- `mul`: schoolbook base-16 long multiplication. -/
def mul (a b : List Nat) : List Nat :=
  let p := pad a b
  mulLoop p.2 p.1.reverse 0 []

/-- Lexicographic strict order on digit vectors: Rust's derived
`PartialOrd` on `Vec<u32>` (a strict prefix is smaller). -/
def lexLt : List Nat → List Nat → Bool
  | [], [] => false
  | [], _ :: _ => true
  | _ :: _, [] => false
  | a :: x, b :: y => if a < b then true else if b < a then false else lexLt x y

/-- Outcome of running `mod_by` under a fuel bound: a value, the
subtraction abort, or fuel exhaustion (the source loop can run forever,
for example on a modulus of numeric value zero). -/
inductive MRes where
  | val : List Nat → MRes
  | panicked : MRes
  | spin : MRes
deriving DecidableEq

/-- The reduction loop of `mod_by`: while `result >= m || result < zero`
(with `zero` the empty vector), subtract `m` when `result >= m`,
otherwise add `m` back. -/
def modLoop (m : List Nat) : Nat → List Nat → MRes
  | 0, _ => .spin
  | fuel + 1, r =>
    if !lexLt r m || lexLt r [] then
      if !lexLt r m then
        match sub r m with
        | some r2 => modLoop m fuel r2
        | none => .panicked
      else modLoop m fuel (add r m)
    else .val r

/-- `mod_by`: the initial `a - m` is computed before any guard, then the
reduction loop runs. -/
def mod_by (fuel : Nat) (a m : List Nat) : MRes :=
  match sub a m with
  | some r => modLoop m fuel r
  | none => .panicked

end BigInt

/-- Numeric value of a digit vector, base 16, most significant first. -/
def val (ds : List Nat) : Nat :=
  ds.foldl (fun acc d => acc * 16 + d) 0

/-- Numeric value of a least-significant-first digit list. -/
def valLE : List Nat → Nat
  | [] => 0
  | d :: ds => d + 16 * valLE ds

/-- Every digit is in the base-16 digit range. -/
def Bounded (ds : List Nat) : Prop := ∀ d ∈ ds, d ≤ 15

instance (ds : List Nat) : Decidable (Bounded ds) :=
  inferInstanceAs (Decidable (∀ d ∈ ds, d ≤ 15))

/-- Spec-side: a valid hexadecimal character (digit or letter of either
case), as a predicate on code points. -/
def isHexChar (c : Nat) : Bool :=
  (48 ≤ c && c ≤ 57) || (97 ≤ c && c ≤ 102) || (65 ≤ c && c ≤ 70)

/-- Spec-side: the digit value of a valid hexadecimal character. -/
def hexCharVal (c : Nat) : Nat :=
  if c ≤ 57 then c - 48 else if 97 ≤ c then c - 87 else c - 55

/-- A lowercase hexadecimal digit character (`0-9` or `a-f`). -/
def isLowerHexChar (c : Nat) : Bool :=
  (48 ≤ c && c ≤ 57) || (97 ≤ c && c ≤ 102)

/-! ## Helper lemmas: parsing and rendering -/

theorem to_digit16_eq (c : Nat) :
    BigInt.to_digit16 c = if isHexChar c then some (hexCharVal c) else none := by
  simp only [BigInt.to_digit16, isHexChar, hexCharVal]
  split_ifs with h1 h2 h3 h4 <;> simp_all <;> omega

theorem to_digit16_le (c d : Nat) (h : BigInt.to_digit16 c = some d) : d ≤ 15 := by
  simp only [BigInt.to_digit16] at h
  split_ifs at h <;> simp_all <;> omega

theorem lower_hex_char (c : Nat) (h : isLowerHexChar c = true) :
    BigInt.to_digit16 c = some (hexCharVal c) ∧ hexCharVal c < 16 ∧
      BigInt.hexChar (hexCharVal c) = c := by
  simp only [isLowerHexChar, Bool.or_eq_true, Bool.and_eq_true, decide_eq_true_eq] at h
  simp only [BigInt.to_digit16, hexCharVal, BigInt.hexChar]
  split_ifs <;> simp_all <;> omega

theorem hexDigits_of_lt (d : Nat) (h : d < 16) :
    BigInt.hexDigits d = [BigInt.hexChar d] := by
  rw [BigInt.hexDigits, if_pos h]

/-! ## Claims C9, C3: parsing and rendering -/

/-- Claim C9: `from_hex` accepts every input string: it maps each valid
hexadecimal character, in order, to its digit value (always in the
base-16 digit range) and silently drops every other character. -/
theorem from_hex_total_drops_invalid (s : List Nat) :
    BigInt.set_hex s = (s.filter isHexChar).map hexCharVal ∧
      ∀ d ∈ BigInt.set_hex s, d ≤ 15 := by
  constructor
  · induction s with
    | nil => rfl
    | cons c cs ih =>
      simp only [BigInt.set_hex, List.filterMap_cons, to_digit16_eq, List.filter_cons] at ih ⊢
      by_cases h : isHexChar c = true
      · simp [h, ih]
      · simp [h, ih]
  · intro d hd
    simp only [BigInt.set_hex, List.mem_filterMap] at hd
    obtain ⟨c, _, hc⟩ := hd
    exact to_digit16_le c d hc

/-- Claim C3: parsing then rendering is the identity on strings composed
solely of lowercase hexadecimal digit characters. -/
theorem to_hex_from_hex_roundtrip (s : List Nat)
    (h : ∀ c ∈ s, isLowerHexChar c = true) :
    BigInt.get_hex (BigInt.set_hex s) = s := by
  induction s with
  | nil => rfl
  | cons c cs ih =>
    obtain ⟨h1, h2, h3⟩ := lower_hex_char c (h c (List.mem_cons_self c cs))
    have ih2 := ih (fun x hx => h x (List.mem_cons_of_mem c hx))
    simp only [BigInt.set_hex, BigInt.get_hex, List.filterMap_cons, h1, List.map_cons,
      List.flatten_cons, hexDigits_of_lt _ h2, h3] at ih2 ⊢
    simp [ih2]

/-- Witness for C3 at the concrete string `"07af"`. -/
theorem to_hex_from_hex_roundtrip_witness :
    BigInt.get_hex (BigInt.set_hex [48, 55, 97, 102]) = [48, 55, 97, 102] :=
  to_hex_from_hex_roundtrip [48, 55, 97, 102] (by decide)

/-! ## Claims C10, C5: shift edge cases -/

/-- Claim C10: on the empty BigInt, `shift_r` aborts (out-of-bounds index
on `vec[0]`) for every shift amount, while `shift_l` returns the empty
BigInt: the two directions disagree at the public interface. -/
theorem shift_empty_asymmetry (k : Nat) :
    BigInt.shift_r [] k = none ∧ BigInt.shift_l [] k = some [] :=
  ⟨rfl, rfl⟩

/-- Counterexample for C5: a shift by exactly 32 is not special-cased and
is not a no-op: `shift_l` aborts on a nonempty vector and `shift_r`
aborts on a vector of two or more words (overflowing shift distance). -/
theorem shift_by_32_counterexample :
    BigInt.shift_l [5] 32 = none ∧ BigInt.shift_r [1, 2] 32 = none := by
  constructor <;> rfl

/-- Claim C5 amended: shift amounts that are exact multiples of 32 are
NOT special-cased.  The reduced distance is 0, so the carry shift
distance is the invalid 32: `shift_l` aborts on every nonempty input and
`shift_r` aborts on every input of length at least two; only `shift_r`
on a single word (whose loop runs zero times) degenerates to a no-op. -/
theorem shift_by_multiple_of_32 (a : List Nat) (k : Nat) (hk : k % 32 = 0) :
    (a ≠ [] → BigInt.shift_l a k = none) ∧
      (2 ≤ a.length → BigInt.shift_r a k = none) ∧
      (a.length = 1 → BigInt.shift_r a k = some a) := by
  refine ⟨?_, ?_, ?_⟩
  · intro ha
    have hrev : a.reverse ≠ [] := by simpa using ha
    match hr : a.reverse with
    | [] => exact absurd hr hrev
    | d :: ds =>
      simp [BigInt.shift_l, hr, hk, BigInt.shlLoop, BigInt.shl32, BigInt.shr32]
  · intro ha
    match a with
    | a0 :: a1 :: rest =>
      simp [BigInt.shift_r, hk, BigInt.shrBody, BigInt.shl32]
    | [] | [a0] => simp at ha
  · intro ha
    match a with
    | [a0] => simp [BigInt.shift_r, hk, BigInt.shrBody, BigInt.shr32]
    | [] | _ :: _ :: _ => simp at ha

/-- Witness for the amended C5 at concrete inputs. -/
theorem shift_by_multiple_of_32_witness :
    BigInt.shift_l [7] 64 = none ∧ BigInt.shift_r [1, 2] 64 = none ∧
      BigInt.shift_r [9] 64 = some [9] :=
  ⟨(shift_by_multiple_of_32 [7] 64 (by decide)).1 (by decide),
   (shift_by_multiple_of_32 [1, 2] 64 (by decide)).2.1 (by decide),
   (shift_by_multiple_of_32 [9] 64 (by decide)).2.2 (by decide)⟩

/-! ## Claim C8: commutativity -/

theorem pad_swap (a b : List Nat) :
    BigInt.pad b a = ((BigInt.pad a b).2, (BigInt.pad a b).1) := by
  simp only [BigInt.pad]
  split_ifs <;> first | rfl | omega

theorem addPairs_swap (ps : List (Nat × Nat)) (c : Nat) :
    BigInt.addPairs (ps.map Prod.swap) c = BigInt.addPairs ps c := by
  induction ps generalizing c with
  | nil => rfl
  | cons p rest ih =>
    simp only [List.map_cons, BigInt.addPairs, Prod.fst_swap, Prod.snd_swap]
    rw [Nat.add_comm p.2 p.1, ih]

/-- Claim C8: `add`, `xor`, `and` and `or` are commutative (operands of
any lengths, padded internally). -/
theorem add_xor_and_or_comm (a b : List Nat) :
    BigInt.add a b = BigInt.add b a ∧ BigInt.xor a b = BigInt.xor b a ∧
      BigInt.and a b = BigInt.and b a ∧ BigInt.or a b = BigInt.or b a := by
  refine ⟨?_, ?_, ?_, ?_⟩
  · simp only [BigInt.add, pad_swap a b]
    rw [← List.zip_swap, addPairs_swap]
  · simp only [BigInt.xor, pad_swap a b]
    exact (List.zipWith_comm_of_comm _ (fun x y => Nat.xor_comm x y) _ _).symm
  · simp only [BigInt.and, pad_swap a b]
    exact (List.zipWith_comm_of_comm _ (fun x y => Nat.land_comm x y) _ _).symm
  · simp only [BigInt.or, pad_swap a b]
    exact (List.zipWith_comm_of_comm _ (fun x y => Nat.lor_comm x y) _ _).symm

/-! ## Numeric value lemmas -/

theorem valLE_append (xs : List Nat) (d : Nat) :
    valLE (xs ++ [d]) = valLE xs + d * 16 ^ xs.length := by
  induction xs with
  | nil => simp [valLE]
  | cons x rest ih =>
    rw [List.cons_append]
    simp only [valLE, List.length_cons, ih]
    ring

theorem foldl_val (ds : List Nat) (acc : Nat) :
    ds.foldl (fun a d => a * 16 + d) acc = acc * 16 ^ ds.length + valLE ds.reverse := by
  induction ds generalizing acc with
  | nil => simp [valLE]
  | cons d rest ih =>
    simp only [List.foldl_cons, List.reverse_cons, ih, valLE_append,
      List.length_reverse, List.length_cons]
    ring

theorem val_eq_valLE (ds : List Nat) : val ds = valLE ds.reverse := by
  simp [val, foldl_val]

theorem val_cons (d : Nat) (ds : List Nat) :
    val (d :: ds) = d * 16 ^ ds.length + val ds := by
  simp [val, List.foldl_cons, foldl_val]

theorem valLE_lt (ds : List Nat) (h : ∀ d ∈ ds, d ≤ 15) :
    valLE ds < 16 ^ ds.length := by
  induction ds with
  | nil => simp [valLE]
  | cons d rest ih =>
    have h1 : d ≤ 15 := h d (List.mem_cons_self d rest)
    have h2 := ih (fun x hx => h x (List.mem_cons_of_mem d hx))
    simp only [valLE, List.length_cons, pow_succ]
    omega

theorem val_lt (ds : List Nat) (h : Bounded ds) : val ds < 16 ^ ds.length := by
  rw [val_eq_valLE, ← List.length_reverse]
  exact valLE_lt ds.reverse (fun d hd => h d (List.mem_reverse.mp hd))

theorem val_replicate_zero (k : Nat) (ds : List Nat) :
    val (List.replicate k 0 ++ ds) = val ds := by
  induction k with
  | zero => rfl
  | succ n ih =>
    simpa [val, List.replicate_succ, List.cons_append] using ih

/-! ## Padding lemmas -/

theorem pad_length (a b : List Nat) :
    (BigInt.pad a b).1.length = (BigInt.pad a b).2.length := by
  simp only [BigInt.pad]
  split_ifs <;> simp <;> omega

theorem pad_length_max (a b : List Nat) :
    (BigInt.pad a b).1.length = max a.length b.length := by
  simp only [BigInt.pad]
  split_ifs <;> simp <;> omega

theorem pad_val_fst (a b : List Nat) : val (BigInt.pad a b).1 = val a := by
  simp only [BigInt.pad]
  split_ifs <;> simp [val_replicate_zero]

theorem pad_val_snd (a b : List Nat) : val (BigInt.pad a b).2 = val b := by
  simp only [BigInt.pad]
  split_ifs <;> simp [val_replicate_zero]

theorem bounded_replicate_append (k : Nat) (ds : List Nat) (h : Bounded ds) :
    Bounded (List.replicate k 0 ++ ds) := by
  intro d hd
  rcases List.mem_append.mp hd with h1 | h2
  · have := List.eq_of_mem_replicate h1
    omega
  · exact h d h2

theorem pad_bounded_fst (a b : List Nat) (h : Bounded a) :
    Bounded (BigInt.pad a b).1 := by
  simp only [BigInt.pad]
  split_ifs <;> first | exact h | exact bounded_replicate_append _ a h

theorem pad_bounded_snd (a b : List Nat) (h : Bounded b) :
    Bounded (BigInt.pad a b).2 := by
  simp only [BigInt.pad]
  split_ifs <;> first | exact h | exact bounded_replicate_append _ b h

/-! ## Addition loop correctness -/

theorem addPairs_spec (ps : List (Nat × Nat)) (c : Nat)
    (hps : ∀ p ∈ ps, p.1 ≤ 15 ∧ p.2 ≤ 15) (hc : c ≤ 1) :
    valLE (BigInt.addPairs ps c) =
        valLE (ps.map Prod.fst) + valLE (ps.map Prod.snd) + c ∧
      ∀ d ∈ BigInt.addPairs ps c, d ≤ 15 := by
  induction ps generalizing c with
  | nil =>
    constructor
    · simp only [BigInt.addPairs, List.map_nil, valLE]
      split_ifs <;> simp [valLE] <;> omega
    · intro d hd
      simp only [BigInt.addPairs] at hd
      split_ifs at hd <;> simp_all <;> omega
  | cons p rest ih =>
    have hp := hps p (List.mem_cons_self p rest)
    have hrest := fun q hq => hps q (List.mem_cons_of_mem p hq)
    have hc2 : (p.1 + p.2 + c) / 16 ≤ 1 := by omega
    obtain ⟨ihv, ihb⟩ := ih ((p.1 + p.2 + c) / 16) hrest hc2
    constructor
    · simp only [BigInt.addPairs, List.map_cons, valLE, ihv]
      omega
    · intro d hd
      simp only [BigInt.addPairs, List.mem_cons] at hd
      rcases hd with h | h
      · omega
      · exact ihb d h

theorem add_val (a b : List Nat) (ha : Bounded a) (hb : Bounded b) :
    val (BigInt.add a b) = val a + val b := by
  have hlen : (BigInt.pad a b).1.reverse.length = (BigInt.pad a b).2.reverse.length := by
    simp [pad_length a b]
  have hmem : ∀ p ∈ List.zip (BigInt.pad a b).1.reverse (BigInt.pad a b).2.reverse,
      p.1 ≤ 15 ∧ p.2 ≤ 15 := by
    intro p hp
    obtain ⟨h1, h2⟩ := List.of_mem_zip hp
    exact ⟨pad_bounded_fst a b ha p.1 (List.mem_reverse.mp h1),
           pad_bounded_snd a b hb p.2 (List.mem_reverse.mp h2)⟩
  obtain ⟨hv, _⟩ := addPairs_spec _ 0 hmem (by omega)
  simp only [BigInt.add, val_eq_valLE, List.reverse_reverse]
  rw [hv, List.map_fst_zip _ _ (le_of_eq hlen), List.map_snd_zip _ _ (ge_of_eq hlen)]
  simp only [← val_eq_valLE, pad_val_fst, pad_val_snd]
  omega

theorem add_bounded (a b : List Nat) (ha : Bounded a) (hb : Bounded b) :
    Bounded (BigInt.add a b) := by
  have hmem : ∀ p ∈ List.zip (BigInt.pad a b).1.reverse (BigInt.pad a b).2.reverse,
      p.1 ≤ 15 ∧ p.2 ≤ 15 := by
    intro p hp
    obtain ⟨h1, h2⟩ := List.of_mem_zip hp
    exact ⟨pad_bounded_fst a b ha p.1 (List.mem_reverse.mp h1),
           pad_bounded_snd a b hb p.2 (List.mem_reverse.mp h2)⟩
  obtain ⟨_, hbnd⟩ := addPairs_spec _ 0 hmem (by omega)
  intro d hd
  simp only [BigInt.add, List.mem_reverse] at hd
  exact hbnd d hd

/-! ## Subtraction loop correctness -/

theorem subPairs_cons (p : Nat × Nat) (rest : List (Nat × Nat)) (b0 : Bool) :
    BigInt.subPairs (p :: rest) b0 =
      (let a := if b0 then (if p.1 = 0 then 15 else p.1 - 1) else p.1
       let b1 := b0 && decide (p.1 = 0)
       let st := if a < p.2 then (16 + a - p.2, true) else (a - p.2, b1)
       (st.1 :: (BigInt.subPairs rest st.2).1, (BigInt.subPairs rest st.2).2)) :=
  rfl

theorem subPairs_spec (ps : List (Nat × Nat)) (b0 : Bool)
    (hps : ∀ p ∈ ps, p.1 ≤ 15 ∧ p.2 ≤ 15) :
    (BigInt.subPairs ps b0).1.length = ps.length ∧
      (∀ d ∈ (BigInt.subPairs ps b0).1, d ≤ 15) ∧
      valLE (BigInt.subPairs ps b0).1 + valLE (ps.map Prod.snd) + b0.toNat =
        valLE (ps.map Prod.fst) + 16 ^ ps.length * ((BigInt.subPairs ps b0).2).toNat := by
  induction ps generalizing b0 with
  | nil => simp [BigInt.subPairs, valLE]
  | cons p rest ih =>
    obtain ⟨hp1, hp2⟩ := hps p (List.mem_cons_self p rest)
    have hrest := fun q hq => hps q (List.mem_cons_of_mem p hq)
    have hpow : (16 : Nat) ^ (p :: rest).length = 16 * 16 ^ rest.length := by
      simp [pow_succ, Nat.mul_comm]
    cases b0 with
    | false =>
      by_cases hlt : p.1 < p.2
      · obtain ⟨ih1, ih2, ih3⟩ := ih true hrest
        simp only [subPairs_cons, Bool.false_and, if_false, Bool.false_eq_true, if_pos hlt]
        refine ⟨by simp [ih1], ?_, ?_⟩
        · intro d hd
          rcases List.mem_cons.mp hd with h | h
          · omega
          · exact ih2 d h
        · cases hbf : (BigInt.subPairs rest true).2 <;>
            (rw [hbf] at ih3
             simp only [valLE, List.map_cons, hpow, Bool.toNat_true, Bool.toNat_false,
               List.length_cons] at ih3 ⊢
             omega)
      · obtain ⟨ih1, ih2, ih3⟩ := ih false hrest
        simp only [subPairs_cons, Bool.false_and, if_false, Bool.false_eq_true, if_neg hlt]
        refine ⟨by simp [ih1], ?_, ?_⟩
        · intro d hd
          rcases List.mem_cons.mp hd with h | h
          · omega
          · exact ih2 d h
        · cases hbf : (BigInt.subPairs rest false).2 <;>
            (rw [hbf] at ih3
             simp only [valLE, List.map_cons, hpow, Bool.toNat_true, Bool.toNat_false,
               List.length_cons] at ih3 ⊢
             omega)
    | true =>
      by_cases hz : p.1 = 0
      · have hnlt : ¬ (15 : Nat) < p.2 := by omega
        obtain ⟨ih1, ih2, ih3⟩ := ih true hrest
        simp only [subPairs_cons, hz, if_true, Bool.true_and, decide_True, if_neg hnlt]
        refine ⟨by simp [ih1], ?_, ?_⟩
        · intro d hd
          rcases List.mem_cons.mp hd with h | h
          · omega
          · exact ih2 d h
        · cases hbf : (BigInt.subPairs rest true).2 <;>
            (rw [hbf] at ih3
             simp only [valLE, List.map_cons, hpow, Bool.toNat_true, Bool.toNat_false,
               List.length_cons] at ih3 ⊢
             omega)
      · by_cases hlt : p.1 - 1 < p.2
        · obtain ⟨ih1, ih2, ih3⟩ := ih true hrest
          simp only [subPairs_cons, hz, if_false, if_true, Bool.true_and, decide_False,
            Bool.false_eq_true, if_pos hlt]
          refine ⟨by simp [ih1], ?_, ?_⟩
          · intro d hd
            rcases List.mem_cons.mp hd with h | h
            · omega
            · exact ih2 d h
          · cases hbf : (BigInt.subPairs rest true).2 <;>
              (rw [hbf] at ih3
               simp only [valLE, List.map_cons, hpow, Bool.toNat_true, Bool.toNat_false,
                 List.length_cons] at ih3 ⊢
               omega)
        · obtain ⟨ih1, ih2, ih3⟩ := ih false hrest
          simp only [subPairs_cons, hz, if_false, if_true, Bool.true_and, decide_False,
            Bool.false_eq_true, if_neg hlt]
          refine ⟨by simp [ih1], ?_, ?_⟩
          · intro d hd
            rcases List.mem_cons.mp hd with h | h
            · omega
            · exact ih2 d h
          · cases hbf : (BigInt.subPairs rest false).2 <;>
              (rw [hbf] at ih3
               simp only [valLE, List.map_cons, hpow, Bool.toNat_true, Bool.toNat_false,
                 List.length_cons] at ih3 ⊢
               omega)

theorem sub_spec (a b : List Nat) (ha : Bounded a) (hb : Bounded b) :
    (BigInt.sub a b = none ↔ val a < val b) ∧
      ∀ r, BigInt.sub a b = some r →
        val r + val b = val a ∧ Bounded r ∧ r.length = max a.length b.length := by
  have hlen : (BigInt.pad a b).1.reverse.length = (BigInt.pad a b).2.reverse.length := by
    simp [pad_length a b]
  have hmem : ∀ p ∈ List.zip (BigInt.pad a b).1.reverse (BigInt.pad a b).2.reverse,
      p.1 ≤ 15 ∧ p.2 ≤ 15 := by
    intro p hp
    obtain ⟨h1, h2⟩ := List.of_mem_zip hp
    exact ⟨pad_bounded_fst a b ha p.1 (List.mem_reverse.mp h1),
           pad_bounded_snd a b hb p.2 (List.mem_reverse.mp h2)⟩
  obtain ⟨h1, h2, h3⟩ := subPairs_spec _ false hmem
  rw [List.map_fst_zip _ _ (le_of_eq hlen), List.map_snd_zip _ _ (ge_of_eq hlen)] at h3
  have hzl : (List.zip (BigInt.pad a b).1.reverse (BigInt.pad a b).2.reverse).length
      = (BigInt.pad a b).1.length := by
    simp only [List.length_zip, List.length_reverse]
    rw [pad_length a b, Nat.min_self]
  have hva : valLE (BigInt.pad a b).1.reverse = val a := by
    rw [← val_eq_valLE, pad_val_fst]
  have hvb : valLE (BigInt.pad a b).2.reverse = val b := by
    rw [← val_eq_valLE, pad_val_snd]
  set out := BigInt.subPairs
    (List.zip (BigInt.pad a b).1.reverse (BigInt.pad a b).2.reverse) false with hout
  rw [hzl] at h3
  rw [hva, hvb] at h3
  have hdlt : valLE out.1 < 16 ^ (BigInt.pad a b).1.length := by
    have h4 := valLE_lt _ h2
    rwa [h1, hzl] at h4
  have hmax := pad_length_max a b
  constructor
  · cases hbf : out.2
    · rw [hbf] at h3
      simp only [Bool.toNat_false, Nat.mul_zero, Nat.add_zero] at h3
      constructor
      · intro hnone
        simp [BigInt.sub, ← hout, hbf] at hnone
      · intro hlt
        omega
    · rw [hbf] at h3
      simp only [Bool.toNat_true, Bool.toNat_false, Nat.mul_one, Nat.add_zero] at h3
      refine ⟨fun _ => by omega, fun _ => ?_⟩
      simp [BigInt.sub, ← hout, hbf]
  · intro r hr
    cases hbf : out.2
    · rw [hbf] at h3
      simp only [Bool.toNat_false, Nat.mul_zero, Nat.add_zero] at h3
      simp only [BigInt.sub, ← hout, hbf, Bool.false_eq_true, if_false,
        Option.some.injEq] at hr
      subst hr
      refine ⟨?_, ?_, ?_⟩
      · rw [val_eq_valLE, List.reverse_reverse]
        omega
      · intro d hd
        exact h2 d (List.mem_reverse.mp hd)
      · rw [List.length_reverse, h1, hzl, hmax]
    · simp [BigInt.sub, ← hout, hbf] at hr

/-! ## Claims C2, C4: subtraction behaviour -/

/-- Claim C2: for operands whose digits lie in the base-16 range, `sub`
aborts exactly when the minuend is numerically smaller than the
subtrahend (a borrow is still pending after the last digit pair), and
when it returns, the digits denote exactly the difference. -/
theorem sub_aborts_iff_smaller (a b : List Nat) (ha : Bounded a) (hb : Bounded b) :
    (BigInt.sub a b = none ↔ val a < val b) ∧
      ∀ r, BigInt.sub a b = some r → val r + val b = val a :=
  ⟨(sub_spec a b ha hb).1, fun r hr => ((sub_spec a b ha hb).2 r hr).1⟩

/-- Witness for C2 at a concrete underflowing pair. -/
theorem sub_aborts_iff_smaller_witness : BigInt.sub [7] [9] = none :=
  (sub_aborts_iff_smaller [7] [9] (by decide) (by decide)).1.mpr (by decide)

/-- Counterexample for C4: with `a = [1]`, `b = [15]` no underflow occurs,
yet `sub (add a b) b = some [0, 1]`, which is not element-wise equal to
`a = [1]`: `add` grew the vector and the extra leading zero survives. -/
theorem sub_add_cancel_counterexample :
    BigInt.sub (BigInt.add [1] [15]) [15] = some [0, 1] ∧ ([0, 1] : List Nat) ≠ [1] := by
  decide

/-- Claim C4 amended: for operands with digits in the base-16 range,
subtracting `b` back from `add a b` never aborts and returns a vector
whose numeric value is that of `a`; element-wise equality can fail by an
extra leading zero when `add` grows the vector. -/
theorem sub_add_cancel_value (a b : List Nat) (ha : Bounded a) (hb : Bounded b) :
    ∃ r, BigInt.sub (BigInt.add a b) b = some r ∧ val r = val a := by
  have hab := add_bounded a b ha hb
  have hv := add_val a b ha hb
  obtain ⟨hiff, hsome⟩ := sub_spec (BigInt.add a b) b hab hb
  cases hr : BigInt.sub (BigInt.add a b) b with
  | none =>
    have := hiff.mp hr
    omega
  | some r =>
    obtain ⟨h1, _, _⟩ := hsome r hr
    exact ⟨r, rfl, by omega⟩

/-- Witness for the amended C4 at a concrete carrying pair. -/
theorem sub_add_cancel_value_witness :
    ∃ r, BigInt.sub (BigInt.add [1] [15]) [15] = some r ∧ val r = val [1] :=
  sub_add_cancel_value [1] [15] (by decide) (by decide)

/-! ## Claim C6: range invariant of arithmetic results -/

theorem mulDigit_bounded (a : Nat) (ha : a ≤ 15) :
    ∀ (bs : List Nat) (c : Nat), (∀ b ∈ bs, b ≤ 15) → c ≤ 15 →
      ∀ d ∈ BigInt.mulDigit a bs c, d ≤ 15
  | [], c, _, hc, d, hd => by
    simp only [BigInt.mulDigit] at hd
    split_ifs at hd <;> simp_all
  | b :: rest, c, hbs, hc, d, hd => by
    have hb := hbs b (List.mem_cons_self b rest)
    have hab : a * b ≤ 225 := Nat.mul_le_mul ha hb
    rcases List.mem_cons.mp hd with h | h
    · omega
    · exact mulDigit_bounded a ha rest ((a * b + c) / 16)
        (fun x hx => hbs x (List.mem_cons_of_mem b hx)) (by omega) d h

theorem mulLoop_bounded (pb : List Nat) (hpb : Bounded pb) :
    ∀ (ws : List Nat) (k : Nat) (acc : List Nat), Bounded ws → Bounded acc →
      Bounded (BigInt.mulLoop pb ws k acc)
  | [], _, _, _, hacc => hacc
  | w :: rest, k, acc, hws, hacc => by
    apply mulLoop_bounded pb hpb rest (k + 1) _
      (fun x hx => hws x (List.mem_cons_of_mem w hx))
    apply add_bounded _ _ hacc
    intro d hd
    rcases List.mem_append.mp hd with h | h
    · exact mulDigit_bounded w (hws w (List.mem_cons_self w rest)) pb.reverse 0
        (fun x hx => hpb x (List.mem_reverse.mp hx)) (by omega) d (List.mem_reverse.mp h)
    · have := List.eq_of_mem_replicate h
      omega

theorem mul_bounded (a b : List Nat) (ha : Bounded a) (hb : Bounded b) :
    Bounded (BigInt.mul a b) := by
  apply mulLoop_bounded _ (pad_bounded_snd a b hb) _ 0 []
    (fun d hd => pad_bounded_fst a b ha d (List.mem_reverse.mp hd))
  intro d hd
  exact absurd hd (List.not_mem_nil d)

theorem modLoop_bounded (m : List Nat) (hm : Bounded m) :
    ∀ (fuel : Nat) (r : List Nat), Bounded r →
      ∀ out, BigInt.modLoop m fuel r = BigInt.MRes.val out → Bounded out := by
  intro fuel
  induction fuel with
  | zero =>
    intro r _ out h
    simp [BigInt.modLoop] at h
  | succ n ih =>
    intro r hr out h
    simp only [BigInt.modLoop] at h
    by_cases hg : (!BigInt.lexLt r m || BigInt.lexLt r []) = true
    · rw [if_pos hg] at h
      by_cases hge : (!BigInt.lexLt r m) = true
      · rw [if_pos hge] at h
        cases hs : BigInt.sub r m with
        | none => rw [hs] at h; cases h
        | some r2 =>
          rw [hs] at h
          exact ih r2 ((sub_spec r m hr hm).2 r2 hs).2.1 out h
      · rw [if_neg hge] at h
        exact ih (BigInt.add r m) (add_bounded r m hr hm) out h
    · rw [if_neg hg] at h
      cases h
      exact hr

/-- Claim C6: every element of a vector produced by parsing, `add`,
`sub`, `mul` or `mod_by` (when the operation returns) lies in the
base-16 digit range, for operands whose own elements do. -/
theorem results_bounded :
    (∀ s d, d ∈ BigInt.set_hex s → d ≤ 15) ∧
      (∀ a b, Bounded a → Bounded b → Bounded (BigInt.add a b)) ∧
      (∀ a b r, Bounded a → Bounded b → BigInt.sub a b = some r → Bounded r) ∧
      (∀ a b, Bounded a → Bounded b → Bounded (BigInt.mul a b)) ∧
      (∀ fuel a m r, Bounded a → Bounded m →
        BigInt.mod_by fuel a m = BigInt.MRes.val r → Bounded r) := by
  refine ⟨?_, add_bounded, ?_, mul_bounded, ?_⟩
  · intro s d hd
    simp only [BigInt.set_hex, List.mem_filterMap] at hd
    obtain ⟨c, _, hc⟩ := hd
    exact to_digit16_le c d hc
  · intro a b r ha hb h
    exact ((sub_spec a b ha hb).2 r h).2.1
  · intro fuel a m r ha hm h
    simp only [BigInt.mod_by] at h
    cases hs : BigInt.sub a m with
    | none => rw [hs] at h; cases h
    | some r0 =>
      rw [hs] at h
      exact modLoop_bounded m hm fuel r0 ((sub_spec a m ha hm).2 r0 hs).2.1 r h

/-- Witness for C6 at concrete inputs for each operation. -/
theorem results_bounded_witness :
    Bounded (BigInt.add [9] [8]) ∧ Bounded (BigInt.mul [15] [15]) ∧
      Bounded [2] ∧ Bounded [1] :=
  ⟨results_bounded.2.1 [9] [8] (by decide) (by decide),
   results_bounded.2.2.2.1 [15] [15] (by decide) (by decide),
   results_bounded.2.2.1 [5] [3] [2] (by decide) (by decide) (by decide),
   results_bounded.2.2.2.2 10 [7] [3] [1] (by decide) (by decide) (by decide)⟩

/-! ## Claim C1: the modulo reduction and the subtraction abort -/

theorem lexLt_nil (r : List Nat) : BigInt.lexLt r [] = false := by
  cases r <;> rfl

theorem le_val_of_not_lexLt :
    ∀ (m r : List Nat), Bounded r → Bounded m → m.length ≤ r.length →
      BigInt.lexLt r m = false → val m ≤ val r
  | [], r, _, _, _, _ => Nat.zero_le (val r)
  | _ :: _, [], _, _, hlen, _ => by simp at hlen
  | m0 :: ms, r0 :: rs, hr, hm, hlen, h => by
    have hms : Bounded ms := fun d hd => hm d (List.mem_cons_of_mem m0 hd)
    have hrs : Bounded rs := fun d hd => hr d (List.mem_cons_of_mem r0 hd)
    have hlen2 : ms.length ≤ rs.length := by simpa using hlen
    have hpow : (16 : Nat) ^ ms.length ≤ 16 ^ rs.length :=
      Nat.pow_le_pow_right (by omega) hlen2
    simp only [BigInt.lexLt] at h
    by_cases h1 : r0 < m0
    · rw [if_pos h1] at h
      cases h
    · rw [if_neg h1] at h
      by_cases h2 : m0 < r0
      · rw [val_cons, val_cons]
        have hvm : val ms < 16 ^ ms.length := val_lt ms hms
        have hstep : (m0 + 1) * 16 ^ ms.length ≤ r0 * 16 ^ rs.length :=
          calc (m0 + 1) * 16 ^ ms.length ≤ r0 * 16 ^ ms.length :=
                Nat.mul_le_mul_right _ (by omega)
            _ ≤ r0 * 16 ^ rs.length := Nat.mul_le_mul_left _ hpow
        rw [Nat.succ_mul] at hstep
        omega
      · rw [if_neg h2] at h
        have he : r0 = m0 := by omega
        subst he
        have ihh := le_val_of_not_lexLt ms rs hrs hms hlen2 h
        rw [val_cons, val_cons]
        exact Nat.add_le_add (Nat.mul_le_mul_left r0 hpow) ihh

theorem modLoop_no_panic (m : List Nat) (hm : Bounded m) :
    ∀ (fuel : Nat) (r : List Nat), Bounded r → m.length ≤ r.length →
      BigInt.modLoop m fuel r ≠ BigInt.MRes.panicked := by
  intro fuel
  induction fuel with
  | zero =>
    intro r _ _ h
    simp [BigInt.modLoop] at h
  | succ n ih =>
    intro r hr hlen h
    simp only [BigInt.modLoop] at h
    by_cases hg : (!BigInt.lexLt r m || BigInt.lexLt r []) = true
    · rw [if_pos hg] at h
      by_cases hge : (!BigInt.lexLt r m) = true
      · rw [if_pos hge] at h
        have hlex : BigInt.lexLt r m = false := by simpa using hge
        have hge2 := le_val_of_not_lexLt m r hr hm hlen hlex
        cases hs : BigInt.sub r m with
        | none =>
          exact absurd ((sub_spec r m hr hm).1.mp hs) (by omega)
        | some r2 =>
          rw [hs] at h
          obtain ⟨_, hb2, hl2⟩ := (sub_spec r m hr hm).2 r2 hs
          exact ih r2 hb2 (by rw [hl2]; omega) h
      · rw [if_neg hge] at h
        have hnil : BigInt.lexLt r [] = true := by
          rcases Bool.or_eq_true_iff.mp hg with hx | hx
          · exact absurd hx hge
          · exact hx
        rw [lexLt_nil] at hnil
        cases hnil
    · rw [if_neg hg] at h
      cases h

/-- Counterexample for C1: on dividend 1 and modulus 2, `mod_by` hits the
subtraction abort at once: the initial `a - m` is computed before any
guard, so a dividend smaller than the modulus underflows. -/
theorem mod_by_panics_counterexample :
    BigInt.mod_by 10 [1] [2] = BigInt.MRes.panicked := by
  decide

/-- Claim C1 amended: for operands with digits in the base-16 range,
`mod_by a m` triggers the subtraction abort exactly when the dividend is
numerically smaller than the modulus (the initial unguarded `a - m`
underflows); when `val m ≤ val a`, no subtraction inside `mod_by` ever
underflows, whatever the fuel: the loop guard protects every later call. -/
theorem mod_by_panics_iff (fuel : Nat) (a m : List Nat)
    (ha : Bounded a) (hm : Bounded m) :
    BigInt.mod_by fuel a m = BigInt.MRes.panicked ↔ val a < val m := by
  constructor
  · intro h
    by_contra hge
    simp only [BigInt.mod_by] at h
    cases hs : BigInt.sub a m with
    | none => exact hge ((sub_spec a m ha hm).1.mp hs)
    | some r0 =>
      rw [hs] at h
      obtain ⟨_, hb0, hl0⟩ := (sub_spec a m ha hm).2 r0 hs
      exact modLoop_no_panic m hm fuel r0 hb0 (by rw [hl0]; omega) h
  · intro hlt
    have hs : BigInt.sub a m = none := (sub_spec a m ha hm).1.mpr hlt
    simp [BigInt.mod_by, hs]

/-- Witness for the amended C1: a dividend at least as large as the
modulus never reaches the abort. -/
theorem mod_by_panics_iff_witness :
    BigInt.mod_by 10 [5] [2] ≠ BigInt.MRes.panicked :=
  fun h => absurd ((mod_by_panics_iff 10 [5] [2] (by decide) (by decide)).mp h) (by decide)

/-! ## Claim C7: shift round trip -/

theorem shr_lt (y s : Nat) (hy : y < 4294967296) (hs : s < 32) :
    y >>> (32 - s) < 2 ^ s := by
  rw [Nat.shiftRight_eq_div_pow, Nat.div_lt_iff_lt_mul (Nat.two_pow_pos (32 - s))]
  have h1 : s + (32 - s) = 32 := by omega
  calc y < 4294967296 := hy
    _ = 2 ^ 32 := by norm_num
    _ = 2 ^ s * 2 ^ (32 - s) := by rw [← pow_add, h1]

theorem shl_mod_eq (x s : Nat) (hs : s < 32) :
    (x <<< s) % 4294967296 = 2 ^ s * (x % 2 ^ (32 - s)) := by
  have h2 : 32 - s + s = 32 := by omega
  have h1 : (4294967296 : Nat) = 2 ^ (32 - s) * 2 ^ s := by
    rw [← pow_add, h2]
    norm_num
  rw [Nat.shiftLeft_eq, h1, Nat.mul_mod_mul_right, Nat.mul_comm]

theorem shl_or_shr (x c s : Nat) (hc : c < 2 ^ s) (hs : s < 32) :
    (((x <<< s) % 4294967296) ||| c) >>> s = x % 2 ^ (32 - s) := by
  rw [shl_mod_eq x s hs, ← Nat.mul_add_lt_is_or hc, Nat.shiftRight_eq_div_pow,
    Nat.mul_add_div (Nat.two_pow_pos s), Nat.div_eq_of_lt hc]
  omega

theorem shl_or_carry (x c s : Nat) (hc : c < 2 ^ s) (hs : s < 32) :
    ((((x <<< s) % 4294967296) ||| c) <<< (32 - s)) % 4294967296 = c <<< (32 - s) := by
  have h2 : s + (32 - s) = 32 := by omega
  have hM : (2 : Nat) ^ s * 2 ^ (32 - s) = 4294967296 := by
    rw [← pow_add, h2]
    norm_num
  rw [shl_mod_eq x s hs, ← Nat.mul_add_lt_is_or hc, Nat.shiftLeft_eq, Nat.shiftLeft_eq,
    Nat.add_mul]
  have h3 : 2 ^ s * (x % 2 ^ (32 - s)) * 2 ^ (32 - s) = x % 2 ^ (32 - s) * 4294967296 := by
    rw [Nat.mul_comm (2 ^ s) (x % 2 ^ (32 - s)), Nat.mul_assoc, hM]
  rw [h3, Nat.add_comm, Nat.add_mul_mod_self_right]
  apply Nat.mod_eq_of_lt
  calc c * 2 ^ (32 - s) < 2 ^ s * 2 ^ (32 - s) :=
        Nat.mul_lt_mul_of_pos_right hc (Nat.two_pow_pos _)
    _ = 4294967296 := hM

theorem mod_or_div (x s : Nat) :
    (x % 2 ^ (32 - s)) ||| ((x >>> (32 - s)) <<< (32 - s)) = x := by
  rw [Nat.shiftRight_eq_div_pow, Nat.shiftLeft_eq, Nat.lor_comm,
    Nat.mul_comm (x / 2 ^ (32 - s)) (2 ^ (32 - s)),
    ← Nat.mul_add_lt_is_or (Nat.mod_lt x (Nat.two_pow_pos (32 - s)))]
  exact Nat.div_add_mod x (2 ^ (32 - s))

/-- Proof-side closed form of the words the `shift_l` loop produces,
least significant first. -/
def shlList (s : Nat) : List Nat → Nat → List Nat
  | [], _ => []
  | d :: ds, carry =>
    (((d <<< s) % 4294967296) ||| carry) :: shlList s ds (d >>> (32 - s))

/-- Proof-side closed form of the final carry of the `shift_l` loop. -/
def shlCarry (s : Nat) : List Nat → Nat → Nat
  | [], carry => carry
  | d :: ds, _ => shlCarry s ds (d >>> (32 - s))

theorem shlLoop_eq (s : Nat) (h0 : 0 < s) (hs : s < 32) :
    ∀ (es : List Nat) (c : Nat),
      BigInt.shlLoop s es c = some (shlList s es c, shlCarry s es c)
  | [], _ => rfl
  | d :: ds, c => by
    have h1 : BigInt.shl32 d s = some ((d <<< s) % 4294967296) := by
      simp [BigInt.shl32, hs]
    have h2a : 32 - s < 32 := by omega
    have h2 : BigInt.shr32 d (32 - s) = some (d >>> (32 - s)) := by
      simp [BigInt.shr32, h2a]
    simp only [BigInt.shlLoop, h1, h2, shlLoop_eq s h0 hs ds (d >>> (32 - s)),
      shlList, shlCarry]

theorem shlList_length (s : Nat) :
    ∀ (es : List Nat) (c : Nat), (shlList s es c).length = es.length
  | [], _ => rfl
  | _ :: ds, _ => by simp [shlList, shlList_length s ds]

theorem shlLoop_zero (d : Nat) (ds : List Nat) (c : Nat) :
    BigInt.shlLoop 0 (d :: ds) c = none := by
  simp [BigInt.shlLoop, BigInt.shl32, BigInt.shr32]

theorem shift_l_eq (a : List Nat) (k : Nat) (h0 : 0 < k % 32) :
    BigInt.shift_l a k = some ((if 0 < shlCarry (k % 32) a.reverse 0
        then shlList (k % 32) a.reverse 0 ++ [shlCarry (k % 32) a.reverse 0]
        else shlList (k % 32) a.reverse 0).reverse) := by
  have hs : k % 32 < 32 := Nat.mod_lt k (by omega)
  simp only [BigInt.shift_l, shlLoop_eq (k % 32) h0 hs a.reverse 0]

/-- Proof-side closed form of `shift_r` on a nonempty vector. -/
def shrM (s : Nat) : List Nat → List Nat
  | [] => []
  | r0 :: rest => (r0 >>> s) :: (List.zip (r0 :: rest) rest).map
      (fun p => (p.2 >>> s) ||| ((p.1 <<< (32 - s)) % 4294967296))

theorem shrBody_eq (s : Nat) (hs : s < 32) (h2a : 32 - s < 32) :
    ∀ ps : List (Nat × Nat), BigInt.shrBody s ps =
      some (ps.map (fun p => (p.2 >>> s) ||| ((p.1 <<< (32 - s)) % 4294967296)))
  | [] => rfl
  | p :: rest => by
    have h1 : BigInt.shr32 p.2 s = some (p.2 >>> s) := by
      simp [BigInt.shr32, hs]
    have h2 : BigInt.shl32 p.1 (32 - s) = some ((p.1 <<< (32 - s)) % 4294967296) := by
      simp [BigInt.shl32, h2a]
    simp only [BigInt.shrBody, h1, h2, shrBody_eq s hs h2a rest, List.map_cons]

theorem shift_r_eq (r : List Nat) (k : Nat) (hr : r ≠ []) (h0 : 0 < k % 32) :
    BigInt.shift_r r k = some (shrM (k % 32) r) := by
  have hs : k % 32 < 32 := Nat.mod_lt k (by omega)
  have h2a : 32 - k % 32 < 32 := by omega
  match r with
  | [] => exact absurd rfl hr
  | r0 :: rest =>
    have h1 : BigInt.shr32 r0 (k % 32) = some (r0 >>> (k % 32)) := by
      simp [BigInt.shr32, hs]
    simp only [BigInt.shift_r, shrBody_eq (k % 32) hs h2a, h1, shrM]

theorem shrM_snoc (s : Nat) : ∀ (xs : List Nat) (x d g : Nat),
    (x :: xs).getLast (List.cons_ne_nil x xs) = g →
    shrM s ((x :: xs) ++ [d]) = shrM s (x :: xs) ++
      [(d >>> s) ||| ((g <<< (32 - s)) % 4294967296)]
  | [], x, d, g, hg => by
    simp only [List.getLast_singleton] at hg
    subst hg
    simp [shrM]
  | y :: ys, x, d, g, hg => by
    have hg2 : (y :: ys).getLast (List.cons_ne_nil y ys) = g := by
      rw [← hg, List.getLast_cons (List.cons_ne_nil y ys)]
    have ih := shrM_snoc s ys y d g hg2
    simp only [shrM, List.cons_append, List.zip_cons_cons, List.map_cons] at ih ⊢
    rw [List.cons.injEq] at ih
    rw [ih.2]

/-- Proof-side: the words of a right shift, least significant first. -/
def srLE (s : Nat) : List Nat → List Nat
  | [] => []
  | [d] => [d >>> s]
  | d :: e :: t =>
    ((d >>> s) ||| ((e <<< (32 - s)) % 4294967296)) :: srLE s (e :: t)

theorem shrM_reverse (s : Nat) : ∀ (w : List Nat), w ≠ [] →
    shrM s w.reverse = (srLE s w).reverse
  | [], h => absurd rfl h
  | [d], _ => by simp [shrM, srLE]
  | d :: e :: t, _ => by
    have ih := shrM_reverse s (e :: t) (List.cons_ne_nil e t)
    have hrev : (d :: e :: t).reverse = (e :: t).reverse ++ [d] := by simp
    obtain ⟨x, xs, hx⟩ : ∃ x xs, (e :: t).reverse = x :: xs := by
      cases hxx : (e :: t).reverse with
      | nil => simp at hxx
      | cons x xs => exact ⟨x, xs, rfl⟩
    have hg : (x :: xs).getLast (List.cons_ne_nil x xs) = e := by
      have h1 : (x :: xs).getLast? = some e := by
        rw [← hx, List.getLast?_reverse]
        rfl
      rw [List.getLast?_eq_getLast (x :: xs) (List.cons_ne_nil x xs)] at h1
      exact Option.some.inj h1
    rw [hrev, hx, shrM_snoc s xs x d e hg, ← hx, ih]
    simp [srLE]

theorem srLE_shlList (s : Nat) (h0 : 0 < s) (hs : s < 32) :
    ∀ (es : List Nat) (c : Nat), (∀ d ∈ es, d < 4294967296) → c < 2 ^ s →
      shlCarry s es c = 0 → srLE s (shlList s es c) = es
  | [], _, _, _, _ => rfl
  | [d], c, hb, hc, hcar => by
    have hcar2 : d >>> (32 - s) = 0 := hcar
    have hdlt : d < 2 ^ (32 - s) := by
      rw [Nat.shiftRight_eq_div_pow] at hcar2
      exact (Nat.div_eq_zero_iff (Nat.two_pow_pos _)).mp hcar2
    simp only [shlList, srLE]
    rw [shl_or_shr d c s hc hs, Nat.mod_eq_of_lt hdlt]
  | d :: e :: t, c, hb, hc, hcar => by
    have hd : d < 4294967296 := hb d (List.mem_cons_self d (e :: t))
    have hcd : d >>> (32 - s) < 2 ^ s := shr_lt d s hd hs
    have ih := srLE_shlList s h0 hs (e :: t) (d >>> (32 - s))
      (fun x hx => hb x (List.mem_cons_of_mem d hx)) hcd hcar
    simp only [shlList, srLE]
    rw [shl_or_shr d c s hc hs, shl_or_carry e (d >>> (32 - s)) s hcd hs, mod_or_div d s]
    simp only [shlList] at ih
    rw [ih]

/-- Counterexample for C7: on the empty BigInt, `shift_l` returns the
empty BigInt without growing it, yet `shift_r` by the same amount aborts
(out-of-bounds index) instead of returning it. -/
theorem shift_round_trip_counterexample :
    BigInt.shift_l [] 4 = some [] ∧ BigInt.shift_r [] 4 = none := by
  exact ⟨rfl, rfl⟩

/-- Claim C7 amended: for every NONEMPTY vector of 32-bit words, if
`shift_l a k` returns without growing the vector then `shift_r` by the
same amount returns exactly `a`; the empty BigInt is excluded because
`shift_r` aborts on it. -/
theorem shift_round_trip (a r : List Nat) (k : Nat) (hne : a ≠ [])
    (hw : ∀ d ∈ a, d < 4294967296)
    (hl : BigInt.shift_l a k = some r) (hlen : r.length = a.length) :
    BigInt.shift_r r k = some a := by
  by_cases h0 : k % 32 = 0
  · exfalso
    obtain ⟨x, xs, hx⟩ : ∃ x xs, a.reverse = x :: xs := by
      cases hxx : a.reverse with
      | nil => exact absurd (by simpa using congrArg List.reverse hxx) hne
      | cons x xs => exact ⟨x, xs, rfl⟩
    rw [BigInt.shift_l, h0, hx, shlLoop_zero] at hl
    cases hl
  · have hs0 : 0 < k % 32 := by omega
    have hs : k % 32 < 32 := Nat.mod_lt k (by omega)
    rw [shift_l_eq a k hs0] at hl
    by_cases hcar : 0 < shlCarry (k % 32) a.reverse 0
    · exfalso
      rw [if_pos hcar] at hl
      have hr := Option.some.inj hl
      have hlr : r.length = a.length + 1 := by
        rw [← hr]
        simp [shlList_length]
      omega
    · rw [if_neg hcar] at hl
      have hr := (Option.some.inj hl).symm
      have hcz : shlCarry (k % 32) a.reverse 0 = 0 := by omega
      have hmain := srLE_shlList (k % 32) hs0 hs a.reverse 0
        (fun d hd => hw d (List.mem_reverse.mp hd)) (Nat.two_pow_pos _) hcz
      have hwne : shlList (k % 32) a.reverse 0 ≠ [] := by
        intro hh
        have h2 := congrArg List.length hh
        rw [shlList_length] at h2
        simp at h2
        exact hne h2
      have hrne : r ≠ [] := by
        rw [hr]
        simpa using hwne
      rw [shift_r_eq r k hrne hs0, hr, shrM_reverse (k % 32) _ hwne, hmain]
      simp

/-- Witness for the amended C7 at a concrete nonempty vector. -/
theorem shift_round_trip_witness :
    BigInt.shift_r [32, 64, 96] 5 = some [1, 2, 3] :=
  shift_round_trip [1, 2, 3] [32, 64, 96] 5 (by decide) (by decide) (by decide) (by decide)

/-! ## Sanity checks against the repository's own test vectors -/

theorem modulus_test_vector :
    BigInt.mod_by 20 (BigInt.set_hex [97, 98, 99, 100, 101, 102])
        (BigInt.set_hex [49, 50, 51, 52, 53, 54]) =
      BigInt.MRes.val [0, 7, 15, 6, 14, 9] := by
  decide

theorem shift_l_test_vector : BigInt.shift_l [15] 4 = some [240] := by
  decide

theorem and_or_test_vectors :
    BigInt.and [15, 15] [0, 15] = [0, 15] ∧ BigInt.or [15, 0] [0, 15] = [15, 15] := by
  decide
